import Mathlib

/-!
Verification of the jwql data-access layer: a shallow embedding of
`jwql/edb/engineering_database.py` and
`jwql/website/apps/jwql/data_containers.py`, with theorems about the
engineering-database query wrappers and the filesystem-lookup functions.

Times are modelled as integers (MJD-like instants), telemetry values as
integers, tables as lists, Python dictionaries as association lists with
Python's insert-or-overwrite semantics, and path strings as lists of
characters where string surgery matters.
-/

namespace Jwql

/-- One row of the time-series table returned by an EDB query:
a time stamp (column `MJD`) and a value (column `euvalue`). -/
structure EdbRecord where
  time : Int
  euvalue : Int
deriving DecidableEq, Repr

/-- The state of one telemetry channel inside the external EDB:
its full time series plus the metadata and descriptive info that a
query for the channel reports. -/
structure EdbChannel where
  records : List EdbRecord
  meta : List (String × String)
  info : List (String × String)
deriving DecidableEq, Repr

/-- The external database, mapping each mnemonic identifier to its channel. -/
def EdbState : Type := String → EdbChannel

/-- Module-level MAST token read from the configuration file
(`settings['mast_token']` in the source); its value never influences the
logic modelled here. -/
def MAST_TOKEN : String := "configured-mast-token"

/-- Modelled from the spec: `query_single_mnemonic` is imported from
`jwql.edb.edb_interface`, a repository module that is not among the given
source files.  The spec describes its result as a telemetry-query bundle of
a time-series table, metadata, and descriptive info whose times fall within
`[start, end]`; accordingly the model restricts the channel's records to the
requested closed interval and passes the channel's metadata and info through. -/
def query_single_mnemonic (db : EdbState) (mnemonic_identifier : String)
    (start_time end_time : Int) (token : String) :
    List EdbRecord × List (String × String) × List (String × String) :=
  (((db mnemonic_identifier).records.filter
      (fun rec => decide (start_time ≤ rec.time) && decide (rec.time ≤ end_time))),
   (db mnemonic_identifier).meta,
   (db mnemonic_identifier).info)

/-- Record type corresponding to the `EdbMnemonic` class: the attributes
set by `EdbMnemonic.__init__`. -/
structure EdbMnemonic where
  mnemonic_identifier : String
  start_time : Int
  end_time : Int
  data : List EdbRecord
  meta : List (String × String)
  info : List (String × String)
deriving DecidableEq, Repr

/-- Embedding of `get_mnemonic`: run the external query and wrap the three
components, together with the arguments, in an `EdbMnemonic`. -/
def get_mnemonic (db : EdbState) (mnemonic_identifier : String)
    (start_time end_time : Int) : EdbMnemonic :=
  let q := query_single_mnemonic db mnemonic_identifier start_time end_time MAST_TOKEN
  { mnemonic_identifier := mnemonic_identifier
    start_time := start_time
    end_time := end_time
    data := q.1
    meta := q.2.1
    info := q.2.2 }

/-- The dynamically-typed `mnemonics` argument of `get_mnemonics`: a Python
list, a numpy array, or a value of any other runtime type. -/
inductive PyMnemonicsArg where
  | pylist (xs : List String)
  | ndarray (xs : List String)
  | otherValue (desc : String)
deriving DecidableEq, Repr

/-- Python dictionary insertion: overwrite in place when the key is present,
append otherwise (`OrderedDict` keeps first-insertion order). -/
def dictInsert (d : List (String × EdbMnemonic)) (k : String) (v : EdbMnemonic) :
    List (String × EdbMnemonic) :=
  if d.any (fun p => p.1 == k) then
    d.map (fun p => if p.1 == k then (p.1, v) else p)
  else
    d ++ [(k, v)]

/-- Loop body of `get_mnemonics`: fill the dictionary for one identifier and
record the query issued for it (each `get_mnemonic` call performs exactly one
external query). -/
def get_mnemonicsStep (db : EdbState) (start_time end_time : Int)
    (acc : List (String × EdbMnemonic) × List String) (id : String) :
    List (String × EdbMnemonic) × List String :=
  (dictInsert acc.1 id (get_mnemonic db id start_time end_time), acc.2 ++ [id])

/-- Embedding of `get_mnemonics`: reject arguments that are neither a list
nor a numpy array with a `RuntimeError`, otherwise loop over the identifiers
filling an ordered dictionary.  The second component of the result is the
log of external queries issued, in order. -/
def get_mnemonics (db : EdbState) (mnemonics : PyMnemonicsArg)
    (start_time end_time : Int) :
    Except String (List (String × EdbMnemonic) × List String) :=
  match mnemonics with
  | .otherValue _ => .error "Please provide a list/array of mnemonic_identifiers"
  | .pylist ms => .ok (ms.foldl (get_mnemonicsStep db start_time end_time) ([], []))
  | .ndarray ms => .ok (ms.foldl (get_mnemonicsStep db start_time end_time) ([], []))

/-- Embedding of `get_expstart`: the body is `return 5000.00`; the second
component logs the external archive queries performed, of which there are none. -/
def get_expstart (rootname : String) : ℚ × List String :=
  ((5000 : ℚ), ([] : List String))

/-- Concrete database used by witnesses: channel `"A"` has records at times
2 and 20, channel `"B"` one record at time 3. -/
def edbDb0 : EdbState := fun id =>
  if id = "A" then ⟨[⟨2, 5⟩, ⟨20, 6⟩], [("TlmMnemonics", "A")], [("unit", "V")]⟩
  else if id = "B" then ⟨[⟨3, 7⟩], [], []⟩
  else ⟨[], [], []⟩

/-- The `astroquery.mast` session as `log_into_mast` observes it: whether the
session is currently authenticated, and the authentication state that a login
with a given token would produce (the value of `Mast.authenticated()` right
after `Mast.login(token=...)`). -/
structure MastSession where
  authenticated : Bool
  loginAuth : String → Bool

/-- Python `str` applied to the value returned by `get_mast_token`: the
request either carries a token string or `None`, and `str(None) = "None"`. -/
def pyStr : Option String → String
  | none => "None"
  | some s => s

/-- Embedding of `log_into_mast`: return `True` at once when already
authenticated; otherwise stringify the request's MAST token, attempt a login
only when it differs from `"None"`, and return the post-login authentication
state (`False` without a login attempt when the token is absent).  The second
component is the list of login attempts made, each recorded by its token. -/
def log_into_mast (mast : MastSession) (request_token : Option String) :
    Bool × List String :=
  if mast.authenticated then
    (true, [])
  else
    let access_token := pyStr request_token
    if access_token ≠ "None" then
      (mast.loginAuth access_token, [access_token])
    else
      (false, [])

/-- One row of the mnemonic inventory table, as an association list from
column names to entries; looking up an absent column yields `""`. -/
def rowGet (row : List (String × String)) (col : String) : String :=
  match row.find? (fun p => p.1 == col) with
  | some p => p.2
  | none => ""

/-- One pass of the exploration filtering loop of `get_edb_components`:
`field` is a form field as a pair of its label (the inventory column name)
and its submitted value; when the value is non-empty the table is restricted
to the rows whose entry in the labelled column matches the value under
`search` (modelling `re.search(value, item, re.IGNORECASE)` of the external
`re` library). -/
def exploreFilterStep (search : String → String → Bool)
    (table : List (List (String × String))) (field : String × String) :
    List (List (String × String)) :=
  if field.2 ≠ "" then
    table.filter (fun row => search field.2 (rowGet row field.1))
  else
    table

/-- The exploration filtering loop of `get_edb_components`: fold the
per-field restriction over all form fields, starting from the full
mnemonic inventory. -/
def exploreFilter (search : String → String → Bool)
    (fields : List (String × String))
    (inventory : List (List (String × String))) :
    List (List (String × String)) :=
  fields.foldl (exploreFilterStep search) inventory

/-- Final exploration result of `get_edb_components`: the filtered table,
replaced by the string `'empty'` when no row survives. -/
def explorationOutcome (search : String → String → Bool)
    (fields : List (String × String))
    (inventory : List (List (String × String))) :
    String ⊕ List (List (String × String)) :=
  let t := exploreFilter search fields inventory
  if t.length = 0 then Sum.inl "empty" else Sum.inr t

/-- Paths and path fragments as lists of characters. -/
abbrev Chars := List Char

/-- Python `s.split(sep)` for a single-character separator: cut the character
list at every occurrence of `sep`; the result is always non-empty and the
separator characters are dropped. -/
def splitChar (sep : Char) : Chars → List Chars
  | [] => [[]]
  | c :: rest =>
    if c = sep then
      [] :: splitChar sep rest
    else
      match splitChar sep rest with
      | [] => [[c]]
      | x :: xs => (c :: x) :: xs

/-- Python `s.split("jw")` on character lists: cut at every leftmost,
non-overlapping occurrence of the two-character separator `"jw"`. -/
def splitJw : Chars → List Chars
  | [] => [[]]
  | [c] => [[c]]
  | c :: d :: rest =>
    if c = 'j' ∧ d = 'w' then
      [] :: splitJw rest
    else
      match splitJw (d :: rest) with
      | [] => [[c]]
      | x :: xs => (c :: x) :: xs

/-- Whether the two-character substring `"jw"` occurs in the character list. -/
def hasJw : Chars → Bool
  | [] => false
  | [_] => false
  | c :: d :: rest => (c = 'j' && d = 'w') || hasJw (d :: rest)

/-- The text after the last occurrence of `"jw"` in the character list, or
`none` when `"jw"` does not occur. -/
def afterLastOcc : Chars → Option Chars
  | [] => none
  | [_] => none
  | c :: d :: rest =>
    if c = 'j' ∧ d = 'w' then
      match afterLastOcc rest with
      | some r => some r
      | none => some rest
    else
      afterLastOcc (d :: rest)

/-- Embedding of `get_all_proposals`: map each filesystem entry to the last
piece of its split on `"jw"` and keep the pieces of length exactly five. -/
def get_all_proposals (entries : List Chars) : List Chars :=
  (entries.map (fun proposal => (splitJw proposal).getLastD [])).filter
    (fun proposal => proposal.length == 5)

/-- The claim's reading of `get_all_proposals`: keep an entry exactly when
the text after the last occurrence of `"jw"` in it has length five, and
return those texts; an entry in which `"jw"` does not occur has no such text
and contributes nothing. -/
def get_all_proposals_claim (entries : List Chars) : List Chars :=
  entries.filterMap (fun p =>
    match afterLastOcc p with
    | some r => if r.length = 5 then some r else none
    | none => none)

/-- Amended reading of `get_all_proposals`: for each entry take the text
after the last occurrence of `"jw"` when one occurs and the whole entry text
otherwise, and keep exactly the texts of length five. -/
def get_all_proposals_amended (entries : List Chars) : List Chars :=
  entries.filterMap (fun p =>
    let r := (afterLastOcc p).getD p
    if r.length = 5 then some r else none)

/-- Lexicographic comparison of character lists by code point, the order
Python's `sorted` uses on strings. -/
def strLe : Chars → Chars → Bool
  | [], _ => true
  | _ :: _, [] => false
  | a :: as, b :: bs => if a = b then strLe as bs else decide (a < b)

/-- A filesystem entry below `FILESYSTEM_DIR`: the proposal directory name
and the file name inside it.  Genuine filesystem names never contain `'/'`. -/
structure FsEntry where
  dir : Chars
  name : Chars
deriving DecidableEq, Repr

/-- The proposal string computed by `get_filenames_by_rootname`:
`rootname.split('_')[0].split('jw')[-1][0:5]`. -/
def proposalOf (rootname : Chars) : Chars :=
  List.take 5 ((splitJw ((splitChar '_' rootname).headD [])).getLastD [])

/-- The proposal directory name `'jw{}'.format(proposal)` that
`get_filenames_by_rootname` searches. -/
def jwDir (rootname : Chars) : Chars := 'j' :: 'w' :: proposalOf rootname

/-- Embedding of `get_filenames_by_rootname`: glob
`FILESYSTEM_DIR/jw{proposal}/{rootname}*` (the entries of the proposal
directory whose name starts with the rootname), sort the full paths, and
return the base names. -/
def get_filenames_by_rootname (fs : List FsEntry) (rootname : Chars) : List Chars :=
  (((fs.filter (fun en => en.dir == jwDir rootname && rootname.isPrefixOf en.name)).map
      (fun en => en.dir ++ '/' :: en.name)).mergeSort strLe).map
    (fun p => (splitChar '/' p).getLastD [])

/-- A Python exception relevant to the `thumbnails` loop: `ValueError` from
the filename parsing, or `NameError` (including `UnboundLocalError`) from
evaluating an unbound name. -/
inductive PyErr where
  | valueError
  | nameError (name : String)
deriving DecidableEq, Repr

/-- The two fields of the `filename_parser` result that `thumbnails` reads. -/
structure FilenameParts where
  program_id : Chars
  detector : Chars
deriving DecidableEq, Repr

/-- Python `os.path`-style base name: the text after the last `'/'`. -/
def basenameOf (f : Chars) : Chars := (splitChar '/' f).getLastD []

/-- The file ID computed in `thumbnails`:
`'_'.join(f.split('/')[-1].split('_')[:-1])`. -/
def fileId (f : Chars) : Chars :=
  List.intercalate ['_'] ((splitChar '_' (basenameOf f)).dropLast)

/-- The local variables of the `thumbnails` loop body that Python binds only
on some control-flow paths; `none` models an unbound name. -/
structure ThumbLocals where
  program_id : Option Chars
  detector : Option Chars
deriving DecidableEq, Repr

/-- Evaluation of a possibly-unbound Python local: an unbound read raises
`NameError` (as `UnboundLocalError`). -/
def readLocal (v : Option Chars) (nm : String) : Except PyErr Chars :=
  match v with
  | some x => .ok x
  | none => .error (.nameError nm)

/-- Inner loop of `thumbnails` over `filepaths` for one `file_id`: when a
file matches, parse it inside `try`; on success bind `program_id` and
`detector`, and on `ValueError` run the except branch, whose first statement
`program_id = nfile_id[2:7]` reads the undefined name `nfile_id` and hence
raises `NameError`. -/
def thumbInner (fparser : Chars → Except Unit FilenameParts)
    (file_id : Chars) (loc : ThumbLocals) : List Chars → Except PyErr ThumbLocals
  | [] => .ok loc
  | f :: rest =>
    if fileId f == file_id then
      match fparser f with
      | .ok parts =>
          thumbInner fparser file_id ⟨some parts.program_id, some parts.detector⟩ rest
      | .error _ => .error (.nameError "nfile_id")
    else
      thumbInner fparser file_id loc rest

/-- Python `detector.startswith('f')`. -/
def startsWithF : Chars → Bool
  | 'f' :: _ => true
  | _ => false

/-- Outer loop of `thumbnails` over the file IDs, threading the accumulated
`detectors` and `proposals` lists and the loop-carried locals; after the
inner loop both locals are read, an unbound read raising `NameError`. -/
def thumbLoop (fparser : Chars → Except Unit FilenameParts) (filepaths : List Chars) :
    List Chars × List Chars × ThumbLocals → List Chars →
      Except PyErr (List Chars × List Chars)
  | (dets, props, _), [] => .ok (dets, props)
  | (dets, props, loc), fid :: rest =>
    match thumbInner fparser fid loc filepaths with
    | .error e => .error e
    | .ok loc₂ =>
      match readLocal loc₂.detector "detector" with
      | .error e => .error e
      | .ok detector =>
        match readLocal loc₂.program_id "program_id" with
        | .error e => .error e
        | .ok program_id =>
          let dets₂ :=
            if detector ∉ dets ∧ startsWithF detector = false then dets ++ [detector]
            else dets
          let props₂ := if program_id ∉ props then props ++ [program_id] else props
          thumbLoop fparser filepaths (dets₂, props₂, loc₂) rest

/-- The `page_type` string chosen in `thumbnails` from the optional proposal. -/
def pageTypeOf : Option Nat → Chars
  | some _ => ['a', 'r', 'c', 'h', 'i', 'v', 'e']
  | none => ['u', 'n', 'l', 'o', 'o', 'k', 'e', 'd']

/-- Python `'{:05d}'.format(n)`: the decimal digits of `n` left-padded with
zeros to width five. -/
def format05d (n : Nat) : Chars :=
  let s := (Nat.repr n).toList
  List.replicate (5 - s.length) '0' ++ s

/-- Python slice `l[a:b]` for `0 ≤ a ≤ b`. -/
def pySlice (l : Chars) (a b : Nat) : Chars := (l.drop a).take (b - a)

/-- First-occurrence-order deduplication, a deterministic model of iterating
over the Python `set` built in `thumbnails` (no property proved here depends
on the iteration order). -/
def dedupFirst (seen : List Chars) : List Chars → List Chars
  | [] => []
  | x :: xs => if x ∈ seen then dedupFirst seen xs else x :: dedupFirst (x :: seen) xs

/-- Embedding of the `thumbnails` page builder up to the dropdown data it
computes: obtain the instrument's files, apply `split_files`, form the set of
file IDs, optionally restrict to the requested proposal, and run the
detector/proposal collection loop.  `fparser` stands for `filename_parser`
and `splitFiles` for `split_files`, both repository functions outside the
given source files; `split_files` is modelled from the spec as an arbitrary
supplied transformation (the source only says it splits the files into
`archived` and `unlooked`). -/
def thumbnails (fparser : Chars → Except Unit FilenameParts)
    (splitFiles : List Chars → Chars → List Chars)
    (filepaths₀ : List Chars) (proposal : Option Nat) :
    Except PyErr (List Chars × List Chars) :=
  let page_type := pageTypeOf proposal
  let filepaths := splitFiles filepaths₀ page_type
  let full_ids₀ := dedupFirst [] (filepaths.map fileId)
  let full_ids :=
    match proposal with
    | some p => full_ids₀.filter (fun f => pySlice f 2 7 == format05d p)
    | none => full_ids₀
  thumbLoop fparser filepaths ([], [], ⟨none, none⟩) full_ids

/-- Concrete rootname used by witnesses: `"jw12345_x"`. -/
def rootname0 : Chars := ['j', 'w', '1', '2', '3', '4', '5', '_', 'x']

/-- Concrete filesystem entry used by witnesses: file `"jw12345_xa"` inside
the proposal directory `"jw12345"`. -/
def fsEntry0 : FsEntry :=
  ⟨['j', 'w', '1', '2', '3', '4', '5'],
   ['j', 'w', '1', '2', '3', '4', '5', '_', 'x', 'a']⟩

end Jwql

namespace Jwql

theorem dictInsert_of_not_mem (d : List (String × EdbMnemonic)) (k : String)
    (v : EdbMnemonic) (h : d.any (fun p => p.1 == k) = false) :
    dictInsert d k v = d ++ [(k, v)] := by
  simp [dictInsert, h]

theorem get_mnemonics_go_log (db : EdbState) (s e : Int) :
    ∀ (ms : List String) (d : List (String × EdbMnemonic)) (log : List String),
      (ms.foldl (get_mnemonicsStep db s e) (d, log)).2 = log ++ ms := by
  intro ms
  induction ms with
  | nil => intro d log; simp
  | cons m rest ih =>
      intro d log
      simp only [List.foldl_cons, get_mnemonicsStep]
      rw [ih]
      simp

theorem get_mnemonics_go_nodup (db : EdbState) (s e : Int) :
    ∀ (ms : List String) (d : List (String × EdbMnemonic)) (log : List String),
      (∀ k ∈ d.map Prod.fst, k ∉ ms) → ms.Nodup →
      (ms.foldl (get_mnemonicsStep db s e) (d, log)).1 =
        d ++ ms.map (fun id => (id, get_mnemonic db id s e)) := by
  intro ms
  induction ms with
  | nil => intro d log _ _; simp
  | cons m rest ih =>
      intro d log hd hnd
      simp only [List.foldl_cons, get_mnemonicsStep]
      have hm : d.any (fun p => p.1 == m) = false := by
        by_contra hcon
        rcases List.any_eq_true.mp (eq_true_of_ne_false hcon) with ⟨p, hp, hpk⟩
        have : p.1 ∈ d.map Prod.fst := List.mem_map_of_mem _ hp
        exact hd p.1 this (by simp [eq_of_beq hpk])
      rw [dictInsert_of_not_mem d m _ hm]
      have hnd' : rest.Nodup := (List.nodup_cons.mp hnd).2
      have hd' : ∀ k ∈ (d ++ [(m, get_mnemonic db m s e)]).map Prod.fst, k ∉ rest := by
        intro k hk
        rcases List.mem_map.mp hk with ⟨p, hp, hpk⟩
        rcases List.mem_append.mp hp with hpl | hpr
        · have := hd k (hpk ▸ List.mem_map_of_mem _ hpl)
          intro hkr; exact this (List.mem_cons_of_mem _ hkr)
        · have hpm : p = (m, get_mnemonic db m s e) := by simpa using hpr
          subst hpm
          simp only [← hpk]
          exact (List.nodup_cons.mp hnd).1
      rw [ih _ _ hd' hnd']
      simp

/-- C1: every `EdbMnemonic` returned by `get_mnemonic` has all time values of
its data table inside the closed interval `[start_time, end_time]`. -/
theorem get_mnemonic_times_in_range (db : EdbState) (id : String) (s e : Int) :
    ∀ rec ∈ (get_mnemonic db id s e).data, s ≤ rec.time ∧ rec.time ≤ e := by
  intro rec hrec
  simp only [get_mnemonic, query_single_mnemonic] at hrec
  rcases List.mem_filter.mp hrec with ⟨-, hcond⟩
  simp only [Bool.and_eq_true, decide_eq_true_eq] at hcond
  exact hcond

theorem get_mnemonic_times_in_range_witness :
    (⟨2, 5⟩ : EdbRecord) ∈ (get_mnemonic edbDb0 "A" 0 10).data ∧
      (0 : Int) ≤ 2 ∧ (2 : Int) ≤ 10 :=
  ⟨by decide, get_mnemonic_times_in_range edbDb0 "A" 0 10 ⟨2, 5⟩ (by decide)⟩

/-- C4: `get_mnemonic` is a pure wrapper; the identifier and time arguments
are stored unchanged and the three components of the external query result
become `data`, `meta` and `info` with no transformation. -/
theorem get_mnemonic_pure_wrapper (db : EdbState) (id : String) (s e : Int) :
    (get_mnemonic db id s e).mnemonic_identifier = id ∧
    (get_mnemonic db id s e).start_time = s ∧
    (get_mnemonic db id s e).end_time = e ∧
    (get_mnemonic db id s e).data = (query_single_mnemonic db id s e MAST_TOKEN).1 ∧
    (get_mnemonic db id s e).meta = (query_single_mnemonic db id s e MAST_TOKEN).2.1 ∧
    (get_mnemonic db id s e).info = (query_single_mnemonic db id s e MAST_TOKEN).2.2 :=
  ⟨rfl, rfl, rfl, rfl, rfl, rfl⟩

/-- C3 counterexample: for the duplicated input `["A", "A"]` the returned
dictionary has keys `["A"]`, not the queried identifiers in input order, and
two external queries are issued for the single identifier `"A"`. -/
theorem get_mnemonics_duplicates_counterexample :
    (get_mnemonics edbDb0 (.pylist ["A", "A"]) 0 10).toOption.map
        (fun r => (r.1.map Prod.fst, r.2)) = some (["A"], ["A", "A"]) ∧
    (["A"] : List String) ≠ ["A", "A"] ∧
    (["A", "A"] : List String).count "A" ≠ 1 := by
  refine ⟨?_, by decide, by decide⟩
  rfl

/-- C3 (amended): for every list or numpy array of pairwise-distinct mnemonic
identifiers, `get_mnemonics` issues exactly one query per identifier, in input
order, and returns an ordered dictionary whose keys are exactly the queried
identifiers in input order, each mapped to the `EdbMnemonic` produced by
`get_mnemonic` for that identifier and the given start and end times. -/
theorem get_mnemonics_nodup_spec (db : EdbState) (ms : List String) (s e : Int)
    (h : ms.Nodup) :
    get_mnemonics db (.pylist ms) s e =
      .ok (ms.map (fun id => (id, get_mnemonic db id s e)), ms) ∧
    get_mnemonics db (.ndarray ms) s e =
      .ok (ms.map (fun id => (id, get_mnemonic db id s e)), ms) := by
  have hfold : ms.foldl (get_mnemonicsStep db s e) ([], []) =
      (ms.map (fun id => (id, get_mnemonic db id s e)), ms) := by
    have h1 := get_mnemonics_go_nodup db s e ms [] [] (by simp) h
    have h2 := get_mnemonics_go_log db s e ms [] []
    refine Prod.ext ?_ ?_
    · simpa using h1
    · simpa using h2
  constructor
  · simp [get_mnemonics, hfold]
  · simp [get_mnemonics, hfold]

theorem get_mnemonics_nodup_spec_witness :
    get_mnemonics edbDb0 (.pylist ["A", "B"]) 0 10 =
      .ok ([("A", get_mnemonic edbDb0 "A" 0 10), ("B", get_mnemonic edbDb0 "B" 0 10)],
           ["A", "B"]) :=
  (get_mnemonics_nodup_spec edbDb0 ["A", "B"] 0 10 (by decide)).1

/-- C10: `get_mnemonics` raises `RuntimeError` exactly when its argument is
neither a list nor a numpy array; for list and array arguments the type check
passes and the identifiers are all queried, in order. -/
theorem get_mnemonics_type_check (db : EdbState) (v : PyMnemonicsArg) (s e : Int) :
    (∀ ms, (v = .pylist ms ∨ v = .ndarray ms) →
       ∃ r, get_mnemonics db v s e = .ok r ∧ r.2 = ms) ∧
    ((∀ ms, v ≠ .pylist ms ∧ v ≠ .ndarray ms) →
       get_mnemonics db v s e =
         .error "Please provide a list/array of mnemonic_identifiers") := by
  constructor
  · intro ms hv
    rcases hv with hv | hv <;> subst hv
    · exact ⟨_, rfl, by simpa using get_mnemonics_go_log db s e ms [] []⟩
    · exact ⟨_, rfl, by simpa using get_mnemonics_go_log db s e ms [] []⟩
  · intro hv
    cases v with
    | pylist ms => exact absurd rfl (hv ms).1
    | ndarray ms => exact absurd rfl (hv ms).2
    | otherValue d => rfl

theorem get_mnemonics_type_check_witness :
    (∃ r, get_mnemonics edbDb0 (.pylist ["A"]) 0 10 = .ok r ∧ r.2 = ["A"]) ∧
    get_mnemonics edbDb0 (.otherValue "a string") 0 10 =
      .error "Please provide a list/array of mnemonic_identifiers" :=
  ⟨(get_mnemonics_type_check edbDb0 (.pylist ["A"]) 0 10).1 ["A"] (Or.inl rfl),
   (get_mnemonics_type_check edbDb0 (.otherValue "a string") 0 10).2
     (by intro ms; exact ⟨by simp, by simp⟩)⟩

/-- C5: `get_expstart` is a constant function; it returns exactly `5000.00`
for every rootname, performs no query, and its output is independent of the
input. -/
theorem get_expstart_constant (r r' : String) :
    (get_expstart r).1 = 5000 ∧ (get_expstart r).2 = [] ∧
    get_expstart r = get_expstart r' :=
  ⟨rfl, rfl, rfl⟩

/-- C9: `log_into_mast` returns `True` with no login attempt when the session
is already authenticated; when not authenticated and the token string is
`"None"` it returns `False` with no login attempt; otherwise it performs one
login with the token and returns the resulting authentication state. -/
theorem log_into_mast_spec (mast : MastSession) (tok : Option String) :
    (mast.authenticated = true → log_into_mast mast tok = (true, [])) ∧
    (mast.authenticated = false → pyStr tok = "None" →
       log_into_mast mast tok = (false, [])) ∧
    (mast.authenticated = false → pyStr tok ≠ "None" →
       log_into_mast mast tok = (mast.loginAuth (pyStr tok), [pyStr tok])) := by
  refine ⟨fun h => ?_, fun h hn => ?_, fun h hn => ?_⟩
  · simp [log_into_mast, h]
  · simp [log_into_mast, h, hn]
  · simp [log_into_mast, h, hn]

theorem log_into_mast_spec_witness :
    log_into_mast ⟨true, fun _ => false⟩ none = (true, []) ∧
    log_into_mast ⟨false, fun _ => true⟩ none = (false, []) ∧
    log_into_mast ⟨false, fun t => t == "tok123"⟩ (some "tok123") =
      (true, ["tok123"]) :=
  ⟨(log_into_mast_spec ⟨true, fun _ => false⟩ none).1 rfl,
   (log_into_mast_spec ⟨false, fun _ => true⟩ none).2.1 rfl rfl,
   by
     have := (log_into_mast_spec ⟨false, fun t => t == "tok123"⟩
       (some "tok123")).2.2 rfl (by decide)
     simpa using this⟩

theorem exploreFilter_mem (search : String → String → Bool) :
    ∀ (fields : List (String × String)) (table : List (List (String × String)))
      (row : List (String × String)),
      row ∈ exploreFilter search fields table ↔
        row ∈ table ∧ ∀ f ∈ fields, f.2 ≠ "" → search f.2 (rowGet row f.1) = true := by
  intro fields
  induction fields with
  | nil => intro table row; simp [exploreFilter]
  | cons f fs ih =>
      intro table row
      simp only [exploreFilter, List.foldl_cons] at *
      rw [ih (exploreFilterStep search table f) row]
      unfold exploreFilterStep
      by_cases hf : f.2 = ""
      · rw [if_neg (by simp [hf])]
        constructor
        · rintro ⟨hrow, hall⟩
          refine ⟨hrow, ?_⟩
          intro g hg
          rcases List.mem_cons.mp hg with hgf | hgs
          · subst hgf; intro hne; exact absurd hf hne
          · exact hall g hgs
        · rintro ⟨hrow, hall⟩
          exact ⟨hrow, fun g hg => hall g (List.mem_cons_of_mem _ hg)⟩
      · rw [if_pos (show f.2 ≠ "" from hf), List.mem_filter]
        constructor
        · rintro ⟨⟨hrt, hs⟩, hall⟩
          refine ⟨hrt, ?_⟩
          intro g hg
          rcases List.mem_cons.mp hg with hgf | hgs
          · subst hgf; intro _; exact hs
          · exact hall g hgs
        · rintro ⟨hrow, hall⟩
          exact ⟨⟨hrow, hall f (List.mem_cons_self f fs) hf⟩,
                 fun g hg => hall g (List.mem_cons_of_mem _ hg)⟩

theorem exploreFilter_sublist (search : String → String → Bool) :
    ∀ (fields : List (String × String)) (table : List (List (String × String))),
      (exploreFilter search fields table).Sublist table := by
  intro fields
  induction fields with
  | nil => intro table; simp [exploreFilter]
  | cons f fs ih =>
      intro table
      simp only [exploreFilter, List.foldl_cons]
      refine (ih (exploreFilterStep search table f)).trans ?_
      unfold exploreFilterStep
      by_cases hf : f.2 = ""
      · simp [hf]
      · simp only [ne_eq, hf, not_false_iff, if_true]
        exact List.filter_sublist _

/-- C2: the mnemonic-exploration filtering of `get_edb_components` implements
AND logic over the form fields: a row survives iff, for every field with a
non-empty submitted value, the value matches the row's entry in the field's
column under the (case-insensitive regular-expression) search; the surviving
rows form a sublist of the inventory; and the result is the string `'empty'`
exactly when no row survives. -/
theorem get_edb_components_exploration_spec (search : String → String → Bool)
    (fields : List (String × String)) (inventory : List (List (String × String))) :
    (∀ row, row ∈ exploreFilter search fields inventory ↔
        row ∈ inventory ∧
          ∀ f ∈ fields, f.2 ≠ "" → search f.2 (rowGet row f.1) = true) ∧
    (exploreFilter search fields inventory).Sublist inventory ∧
    (explorationOutcome search fields inventory = Sum.inl "empty" ↔
        exploreFilter search fields inventory = []) := by
  refine ⟨fun row => exploreFilter_mem search fields inventory row,
          exploreFilter_sublist search fields inventory, ?_⟩
  unfold explorationOutcome
  by_cases h : exploreFilter search fields inventory = []
  · simp [h]
  · have : (exploreFilter search fields inventory).length ≠ 0 := by
      simpa [List.length_eq_zero] using h
    simp [this, h]

theorem get_edb_components_exploration_spec_witness :
    ([("name", "AB")] : List (String × String)) ∈
        exploreFilter (fun pat s => pat == s) [("name", "AB")]
          [[("name", "AB")], [("name", "B")]] ∧
    (exploreFilter (fun pat s => pat == s) [("name", "AB")]
        [[("name", "AB")], [("name", "B")]]).Sublist
      [[("name", "AB")], [("name", "B")]] ∧
    (explorationOutcome (fun pat s => pat == s) [("name", "Z")]
        [[("name", "AB")], [("name", "B")]] = Sum.inl "empty" ↔
      exploreFilter (fun pat s => pat == s) [("name", "Z")]
        [[("name", "AB")], [("name", "B")]] = []) :=
  ⟨((get_edb_components_exploration_spec (fun pat s => pat == s)
      [("name", "AB")] [[("name", "AB")], [("name", "B")]]).1 _).mpr
      ⟨by decide, by decide⟩,
   (get_edb_components_exploration_spec (fun pat s => pat == s)
      [("name", "AB")] [[("name", "AB")], [("name", "B")]]).2.1,
   (get_edb_components_exploration_spec (fun pat s => pat == s)
      [("name", "Z")] [[("name", "AB")], [("name", "B")]]).2.2⟩

end Jwql

namespace Jwql

theorem splitChar_ne_nil (sep : Char) : ∀ (l : Chars), splitChar sep l ≠ []
  | [] => by simp [splitChar]
  | c :: rest => by
    rw [splitChar]
    by_cases h : c = sep
    · simp [h]
    · rw [if_neg h]
      rcases hs : splitChar sep rest with _ | ⟨x, xs⟩
      · exact absurd hs (splitChar_ne_nil sep rest)
      · simp

theorem splitJw_ne_nil : ∀ (l : Chars), splitJw l ≠ []
  | [] => by simp [splitJw]
  | [c] => by simp [splitJw]
  | c :: d :: rest => by
    rw [splitJw]
    by_cases h : c = 'j' ∧ d = 'w'
    · simp [h]
    · rw [if_neg h]
      rcases hs : splitJw (d :: rest) with _ | ⟨x, xs⟩
      · exact absurd hs (splitJw_ne_nil (d :: rest))
      · simp

theorem getLastD_default_irrel {α : Type} :
    ∀ (l : List α), l ≠ [] → ∀ (d d' : α), l.getLastD d = l.getLastD d'
  | [], h, _, _ => absurd rfl h
  | x :: xs, _, d, d' => by rw [List.getLastD_cons, List.getLastD_cons]

theorem splitJw_of_hasJw_eq_false : ∀ (l : Chars), hasJw l = false → splitJw l = [l]
  | [], _ => by simp [splitJw]
  | [c], _ => by simp [splitJw]
  | c :: d :: rest, h => by
    have h' : ¬(c = 'j' ∧ d = 'w') ∧ hasJw (d :: rest) = false := by
      simpa [hasJw, Decidable.not_and_iff_or_not] using h
    rw [splitJw, if_neg h'.1, splitJw_of_hasJw_eq_false (d :: rest) h'.2]

theorem splitJw_of_afterLastOcc_none :
    ∀ (l : Chars), afterLastOcc l = none → splitJw l = [l]
  | [], _ => by simp [splitJw]
  | [c], _ => by simp [splitJw]
  | c :: d :: rest, h => by
    by_cases hc : c = 'j' ∧ d = 'w'
    · exfalso
      rw [afterLastOcc, if_pos hc] at h
      rcases ha : afterLastOcc rest with _ | r <;> rw [ha] at h <;> simp at h
    · rw [afterLastOcc, if_neg hc] at h
      rw [splitJw, if_neg hc, splitJw_of_afterLastOcc_none (d :: rest) h]

theorem splitJw_getLastD_of_afterLastOcc_some :
    ∀ (l : Chars) (r : Chars), afterLastOcc l = some r →
      2 ≤ (splitJw l).length ∧ (splitJw l).getLastD [] = r
  | [], r, h => by simp [afterLastOcc] at h
  | [c], r, h => by simp [afterLastOcc] at h
  | c :: d :: rest, r, h => by
    by_cases hc : c = 'j' ∧ d = 'w'
    · rw [afterLastOcc, if_pos hc] at h
      rw [splitJw, if_pos hc]
      rcases ha : afterLastOcc rest with _ | r'
      · rw [ha] at h
        simp only [Option.some.injEq] at h
        subst h
        rw [splitJw_of_afterLastOcc_none rest ha]
        exact ⟨by simp, by simp [List.getLastD_cons]⟩
      · rw [ha] at h
        simp only [Option.some.injEq] at h
        subst h
        obtain ⟨hlen, hlast⟩ := splitJw_getLastD_of_afterLastOcc_some rest r' ha
        refine ⟨by simp; omega, ?_⟩
        rw [List.getLastD_cons]
        exact hlast
    · rw [afterLastOcc, if_neg hc] at h
      obtain ⟨hlen, hlast⟩ := splitJw_getLastD_of_afterLastOcc_some (d :: rest) r h
      rw [splitJw, if_neg hc]
      rcases hs : splitJw (d :: rest) with _ | ⟨x, xs⟩
      · exact absurd hs (splitJw_ne_nil _)
      · rw [hs] at hlen hlast
        cases xs with
        | nil => simp at hlen
        | cons y ys =>
            refine ⟨by simp, ?_⟩
            rw [List.getLastD_cons]
            rw [List.getLastD_cons] at hlast
            rw [← hlast]
            exact getLastD_default_irrel (y :: ys) (by simp) (c :: x) x

theorem splitJw_getLastD_eq (l : Chars) :
    (splitJw l).getLastD [] = (afterLastOcc l).getD l := by
  rcases h : afterLastOcc l with _ | r
  · rw [splitJw_of_afterLastOcc_none l h]
    simp [List.getLastD_cons]
  · simpa using (splitJw_getLastD_of_afterLastOcc_some l r h).2

theorem map_filter_len_eq_filterMap (f : Chars → Chars) :
    ∀ (es : List Chars),
      (es.map f).filter (fun s => s.length == 5) =
        es.filterMap (fun p => if (f p).length = 5 then some (f p) else none)
  | [] => rfl
  | p :: es => by
    simp only [List.map_cons, List.filter_cons, List.filterMap_cons]
    by_cases h : (f p).length = 5
    · simp [h, map_filter_len_eq_filterMap f es]
    · simp [h, map_filter_len_eq_filterMap f es]

theorem get_all_proposals_eq_amended (entries : List Chars) :
    get_all_proposals entries = get_all_proposals_amended entries := by
  rw [get_all_proposals, map_filter_len_eq_filterMap]
  unfold get_all_proposals_amended
  congr 1
  funext p
  rw [splitJw_getLastD_eq p]

/-- C7 counterexample: for the single entry `"abcde"`, which contains no
occurrence of `"jw"`, `get_all_proposals` returns `["abcde"]` (Python's
`split` yields the whole string), while the claim's condition — length five
of the text after the last occurrence of `"jw"` — selects nothing. -/
theorem get_all_proposals_counterexample :
    get_all_proposals [['a', 'b', 'c', 'd', 'e']] = [['a', 'b', 'c', 'd', 'e']] ∧
    get_all_proposals_claim [['a', 'b', 'c', 'd', 'e']] = [] ∧
    ([['a', 'b', 'c', 'd', 'e']] : List Chars) ≠ [] := by
  refine ⟨by rfl, by rfl, by simp⟩

/-- C7 (amended): `get_all_proposals` returns, for each filesystem entry, the
final piece of the entry split on `"jw"` — the text after the last occurrence
of `"jw"` when one occurs, and the whole entry text otherwise — keeping
exactly the pieces of length five; consequently every string in the returned
list has length five. -/
theorem get_all_proposals_spec (entries : List Chars) :
    get_all_proposals entries = get_all_proposals_amended entries ∧
    ∀ s ∈ get_all_proposals entries, s.length = 5 := by
  refine ⟨get_all_proposals_eq_amended entries, ?_⟩
  intro s hs
  rcases List.mem_filter.mp hs with ⟨-, h⟩
  simpa using h

theorem get_all_proposals_spec_witness :
    get_all_proposals [['x', 'j', 'w', '1', '2', '3', '4', '5']] =
      get_all_proposals_amended [['x', 'j', 'w', '1', '2', '3', '4', '5']] ∧
    (['1', '2', '3', '4', '5'] : Chars).length = 5 :=
  ⟨(get_all_proposals_spec [['x', 'j', 'w', '1', '2', '3', '4', '5']]).1,
   (get_all_proposals_spec [['x', 'j', 'w', '1', '2', '3', '4', '5']]).2
     ['1', '2', '3', '4', '5'] (by decide)⟩

end Jwql

namespace Jwql

theorem strLe_total : ∀ (a b : Chars), (strLe a b || strLe b a) = true
  | [], b => by simp [strLe]
  | a :: as, [] => by simp [strLe]
  | a :: as, b :: bs => by
    simp only [strLe]
    by_cases hab : a = b
    · subst hab
      rw [if_pos rfl, if_pos rfl]
      exact strLe_total as bs
    · have hba : ¬ b = a := fun h => hab h.symm
      rw [if_neg hab, if_neg hba]
      rcases lt_trichotomy a b with h | h | h
      · simp [h]
      · exact absurd h hab
      · simp [h, le_of_lt]

theorem strLe_trans :
    ∀ (a b c : Chars), strLe a b = true → strLe b c = true → strLe a c = true
  | [], _, _, _, _ => by simp [strLe]
  | a :: as, [], c, h, _ => by simp [strLe] at h
  | a :: as, b :: bs, [], _, h => by simp [strLe] at h
  | a :: as, b :: bs, c :: cs, hab, hbc => by
    simp only [strLe] at hab hbc ⊢
    by_cases h1 : a = b
    · subst h1
      rw [if_pos rfl] at hab
      by_cases h2 : a = c
      · subst h2
        rw [if_pos rfl] at hbc ⊢
        exact strLe_trans as bs cs hab hbc
      · rw [if_neg h2] at hbc ⊢
        exact hbc
    · rw [if_neg h1] at hab
      have hab' : a < b := of_decide_eq_true hab
      by_cases h2 : b = c
      · subst h2
        rw [if_neg h1]
        exact decide_eq_true hab'
      · rw [if_neg h2] at hbc
        have hbc' : b < c := of_decide_eq_true hbc
        have hac : a < c := lt_trans hab' hbc'
        rw [if_neg (ne_of_lt hac)]
        exact decide_eq_true hac

theorem strLe_append_left : ∀ (d x y : Chars), strLe (d ++ x) (d ++ y) = strLe x y
  | [], x, y => rfl
  | c :: d, x, y => by
    simp only [List.cons_append, strLe, if_pos rfl]
    exact strLe_append_left d x y

theorem splitChar_not_mem (sep : Char) :
    ∀ (l : Chars), sep ∉ l → splitChar sep l = [l]
  | [], _ => by simp [splitChar]
  | c :: rest, h => by
    have hc : ¬ c = sep := fun hcs => h (hcs ▸ List.mem_cons_self c rest)
    rw [splitChar, if_neg hc,
      splitChar_not_mem sep rest (fun hr => h (List.mem_cons_of_mem c hr))]

theorem splitChar_append_length (sep : Char) :
    ∀ (xs ys : Chars), 2 ≤ (splitChar sep (xs ++ sep :: ys)).length
  | [], ys => by
    rw [List.nil_append, splitChar, if_pos rfl]
    have := splitChar_ne_nil sep ys
    have hp : 0 < (splitChar sep ys).length := List.length_pos.mpr this
    simp only [List.length_cons]
    omega
  | c :: xs, ys => by
    rw [List.cons_append, splitChar]
    by_cases hc : c = sep
    · rw [if_pos hc]
      have := splitChar_ne_nil sep (xs ++ sep :: ys)
      have hp : 0 < (splitChar sep (xs ++ sep :: ys)).length := List.length_pos.mpr this
      simp only [List.length_cons]
      omega
    · rw [if_neg hc]
      rcases hs : splitChar sep (xs ++ sep :: ys) with _ | ⟨x, xs₂⟩
      · exact absurd hs (splitChar_ne_nil sep _)
      · have := splitChar_append_length sep xs ys
        rw [hs] at this
        simpa using this

theorem splitChar_getLastD_append (sep : Char) :
    ∀ (xs ys : Chars),
      (splitChar sep (xs ++ sep :: ys)).getLastD [] = (splitChar sep ys).getLastD []
  | [], ys => by
    rw [List.nil_append, splitChar, if_pos rfl, List.getLastD_cons]
  | c :: xs, ys => by
    rw [List.cons_append, splitChar]
    by_cases hc : c = sep
    · rw [if_pos hc, List.getLastD_cons]
      exact splitChar_getLastD_append sep xs ys
    · rw [if_neg hc]
      rcases hs : splitChar sep (xs ++ sep :: ys) with _ | ⟨x, xs₂⟩
      · exact absurd hs (splitChar_ne_nil sep _)
      · have hlen := splitChar_append_length sep xs ys
        rw [hs] at hlen
        have ih := splitChar_getLastD_append sep xs ys
        rw [hs] at ih
        cases xs₂ with
        | nil => simp at hlen
        | cons y ys₂ =>
            rw [List.getLastD_cons] at ih ⊢
            rw [← ih]
            exact getLastD_default_irrel (y :: ys₂) (by simp) (c :: x) x

theorem splitChar_headD (sep : Char) :
    ∀ (l : Chars), (splitChar sep l).headD [] = l.takeWhile (fun c => c != sep)
  | [] => by simp [splitChar]
  | c :: rest => by
    rw [splitChar]
    by_cases hc : c = sep
    · rw [if_pos hc]
      simp [List.takeWhile_cons, hc]
    · rw [if_neg hc]
      rcases hs : splitChar sep rest with _ | ⟨x, xs⟩
      · exact absurd hs (splitChar_ne_nil sep rest)
      · have ih := splitChar_headD sep rest
        rw [hs] at ih
        simp only [List.headD_cons] at ih
        simp [List.takeWhile_cons, hc, ← ih]

theorem hasJw_append_left : ∀ (a b : Chars), hasJw a = true → hasJw (a ++ b) = true
  | [], _, h => by simp [hasJw] at h
  | [c], _, h => by simp [hasJw] at h
  | c :: d :: rest, b, h => by
    simp only [hasJw, Bool.or_eq_true] at h
    simp only [List.cons_append, hasJw, Bool.or_eq_true]
    rcases h with h | h
    · exact Or.inl h
    · exact Or.inr (by
        have := hasJw_append_left (d :: rest) b h
        simpa using this)

theorem hasJw_takeWhile (p : Char → Bool) (l : Chars) (h : hasJw l = false) :
    hasJw (l.takeWhile p) = false := by
  by_contra hcon
  have h1 : hasJw (l.takeWhile p) = true := eq_true_of_ne_false hcon
  have h2 := hasJw_append_left (l.takeWhile p) (l.dropWhile p) h1
  rw [List.takeWhile_append_dropWhile] at h2
  exact absurd h2 (by simp [h])

theorem take_takeWhile_of_not_mem (sep : Char) :
    ∀ (n : Nat) (l : Chars), sep ∉ l.take n →
      (l.takeWhile (fun c => c != sep)).take n = l.take n
  | 0, l, _ => by simp
  | n + 1, [], _ => by simp
  | n + 1, c :: l, h => by
    rw [List.take_succ_cons] at h
    have hc : ¬ c = sep := fun hcs => h (hcs ▸ List.mem_cons_self c _)
    have hl : sep ∉ l.take n := fun hm => h (List.mem_cons_of_mem c hm)
    rw [List.takeWhile_cons, if_pos (show (c != sep) = true by simp [hc]),
      List.take_succ_cons, List.take_succ_cons,
      take_takeWhile_of_not_mem sep n l hl]

end Jwql

namespace Jwql

theorem proposalOf_canonical (rest : Chars) (hjw : hasJw rest = false)
    (hu : ('_' : Char) ∉ rest.take 5) :
    proposalOf ('j' :: 'w' :: rest) = rest.take 5 := by
  unfold proposalOf
  rw [splitChar_headD]
  rw [List.takeWhile_cons, if_pos (by decide), List.takeWhile_cons, if_pos (by decide)]
  have h2 : hasJw (rest.takeWhile (fun c => c != '_')) = false :=
    hasJw_takeWhile _ rest hjw
  rw [splitJw, if_pos ⟨rfl, rfl⟩, splitJw_of_hasJw_eq_false _ h2,
    List.getLastD_cons, List.getLastD_cons, List.getLastD_nil]
  exact take_takeWhile_of_not_mem '_' 5 rest hu

theorem basename_append (dir nm : Chars) (h : ('/' : Char) ∉ nm) :
    (splitChar '/' (dir ++ '/' :: nm)).getLastD [] = nm := by
  rw [splitChar_getLastD_append '/' dir nm, splitChar_not_mem '/' nm h,
    List.getLastD_cons, List.getLastD_nil]

/-- C8: every filename returned by `get_filenames_by_rootname` starts with the
rootname and is the name of a filesystem entry of the proposal directory
`jw{proposal}`, so files sharing a rootname are grouped together; the
returned list is sorted; and for a rootname of the canonical naming
convention — `jw` followed by text containing no further `jw` and no
underscore among its first five characters — the proposal is exactly the
five characters following `jw`. -/
theorem get_filenames_by_rootname_spec (fs : List FsEntry) (rootname : Chars)
    (hfs : ∀ en ∈ fs, ('/' : Char) ∉ en.name) :
    (∀ n ∈ get_filenames_by_rootname fs rootname,
        rootname.isPrefixOf n = true ∧
        ∃ en, en ∈ fs ∧ en.dir = jwDir rootname ∧ en.name = n) ∧
    (get_filenames_by_rootname fs rootname).Pairwise (fun a b => strLe a b = true) ∧
    (∀ rest : Chars, hasJw rest = false → ('_' : Char) ∉ rest.take 5 →
        proposalOf ('j' :: 'w' :: rest) = rest.take 5) := by
  refine ⟨?_, ?_, fun rest h1 h2 => proposalOf_canonical rest h1 h2⟩
  · intro n hn
    simp only [get_filenames_by_rootname] at hn
    rcases List.mem_map.mp hn with ⟨p, hp, hbn⟩
    rw [List.mem_mergeSort] at hp
    rcases List.mem_map.mp hp with ⟨en, hen, hpe⟩
    rcases List.mem_filter.mp hen with ⟨henfs, hcond⟩
    simp only [Bool.and_eq_true, beq_iff_eq] at hcond
    obtain ⟨hdir, hpre⟩ := hcond
    have hbase : (splitChar '/' p).getLastD [] = en.name := by
      rw [← hpe]
      exact basename_append en.dir en.name (hfs en henfs)
    rw [hbase] at hbn
    refine ⟨?_, en, henfs, hdir, hbn⟩
    rw [← hbn]
    exact hpre
  · simp only [get_filenames_by_rootname]
    rw [List.pairwise_map]
    have hsorted := List.sorted_mergeSort strLe_trans strLe_total
      ((fs.filter
          (fun en => en.dir == jwDir rootname && rootname.isPrefixOf en.name)).map
        (fun en => en.dir ++ '/' :: en.name))
    refine hsorted.imp_of_mem ?_
    intro a b ha hb hab
    rw [List.mem_mergeSort] at ha hb
    rcases List.mem_map.mp ha with ⟨ea, hea, hpa⟩
    rcases List.mem_map.mp hb with ⟨eb, heb, hpb⟩
    rcases List.mem_filter.mp hea with ⟨hafs, hacond⟩
    rcases List.mem_filter.mp heb with ⟨hbfs, hbcond⟩
    simp only [Bool.and_eq_true, beq_iff_eq] at hacond hbcond
    have hba : (splitChar '/' a).getLastD [] = ea.name := by
      rw [← hpa]
      exact basename_append ea.dir ea.name (hfs ea hafs)
    have hbb : (splitChar '/' b).getLastD [] = eb.name := by
      rw [← hpb]
      exact basename_append eb.dir eb.name (hfs eb hbfs)
    rw [hba, hbb]
    rw [← hpa, ← hpb, hacond.1, hbcond.1] at hab
    have ea2 : jwDir rootname ++ '/' :: ea.name = (jwDir rootname ++ ['/']) ++ ea.name := by
      simp
    have eb2 : jwDir rootname ++ '/' :: eb.name = (jwDir rootname ++ ['/']) ++ eb.name := by
      simp
    rw [ea2, eb2, strLe_append_left] at hab
    exact hab

theorem get_filenames_by_rootname_spec_witness :
    (get_filenames_by_rootname [fsEntry0] rootname0).Pairwise
        (fun a b => strLe a b = true) ∧
    proposalOf ('j' :: 'w' :: ['1', '2', '3', '4', '5', 'x']) =
      (['1', '2', '3', '4', '5', 'x'] : Chars).take 5 :=
  ⟨(get_filenames_by_rootname_spec [fsEntry0] rootname0 (by decide)).2.1,
   (get_filenames_by_rootname_spec [fsEntry0] rootname0 (by decide)).2.2
     ['1', '2', '3', '4', '5', 'x'] (by decide) (by decide)⟩

end Jwql

namespace Jwql

theorem thumbInner_no_match (fparser : Chars → Except Unit FilenameParts)
    (fid : Chars) :
    ∀ (loc : ThumbLocals) (gps : List Chars), (∀ g ∈ gps, fileId g ≠ fid) →
      thumbInner fparser fid loc gps = .ok loc
  | _, [], _ => rfl
  | loc, g :: gps, h => by
    rw [thumbInner]
    have hg : ¬ (fileId g == fid) = true := by
      simpa using h g (List.mem_cons_self g gps)
    rw [if_neg hg]
    exact thumbInner_no_match fparser fid loc gps
      (fun g₂ hg₂ => h g₂ (List.mem_cons_of_mem g hg₂))

/-- C6: in `thumbnails`, the `ValueError` handler references the undefined
name `nfile_id`, so an input whose (post-`split_files`) file list is a single
file that `filename_parser` rejects makes the function raise `NameError`
instead of applying the documented workaround; additionally, an iteration of
the outer loop whose inner loop matches no file reads `detector` (and then
`program_id`) while unbound, raising `NameError`. -/
theorem thumbnails_noncompliant_raises
    (fparser : Chars → Except Unit FilenameParts)
    (splitFiles : List Chars → Chars → List Chars)
    (fps₀ : List Chars) (f : Chars)
    (hsplit : splitFiles fps₀ (pageTypeOf none) = [f])
    (hbad : fparser f = .error ()) :
    thumbnails fparser splitFiles fps₀ none = .error (.nameError "nfile_id") ∧
    (∀ (gps : List Chars) (fid : Chars), (∀ g ∈ gps, fileId g ≠ fid) →
        thumbLoop fparser gps ([], [], ⟨none, none⟩) [fid] =
          .error (.nameError "detector")) := by
  constructor
  · have hinner : thumbInner fparser (fileId f) ⟨none, none⟩ [f] =
        .error (.nameError "nfile_id") := by
      rw [thumbInner, if_pos (by simp), hbad]
    simp only [thumbnails, hsplit, List.map_cons, List.map_nil, dedupFirst,
      if_neg (List.not_mem_nil (fileId f))]
    rw [thumbLoop, hinner]
  · intro gps fid h
    rw [thumbLoop, thumbInner_no_match fparser fid ⟨none, none⟩ gps h]
    rfl

theorem thumbnails_noncompliant_raises_witness :
    thumbnails (fun _ => .error ()) (fun _ _ => [['x']]) [['x']] none =
      .error (.nameError "nfile_id") :=
  (thumbnails_noncompliant_raises (fun _ => .error ()) (fun _ _ => [['x']])
    [['x']] ['x'] rfl rfl).1

end Jwql
